import Mathlib

/-!
Shallow embedding of `src/sample.rs` (the `Sample` trait of the Claxon FLAC
decoder and its three implementations produced by `impl_sample!(i8, u8)`,
`impl_sample!(i16, u16)`, `impl_sample!(i32, u32)`).

Signed sample values are modelled as `Int`, unsigned counterparts as `Nat`;
each of the three macro instantiations is selected by a `Width` value.
Rust `as` casts are modelled by explicit two's-complement truncation
modulo `2 ^ bits W`.
-/

namespace Claxon

/-- The three types the `impl_sample!` macro is instantiated at:
`(i8, u8)`, `(i16, u16)` and `(i32, u32)`. -/
inductive Width where
  | w8 : Width
  | w16 : Width
  | w32 : Width

/-- Bit width of the signed type (and of its unsigned counterpart). -/
def bits : Width → Nat
  | .w8 => 8
  | .w16 => 16
  | .w32 => 32

/-- `fn max() -> $signed { $signed::MAX }`: the constants `i8::MAX`,
`i16::MAX`, `i32::MAX`. -/
def max : Width → Int
  | .w8 => 127
  | .w16 => 32767
  | .w32 => 2147483647

/-- `fn min() -> $signed { $signed::MIN }`: the constants `i8::MIN`,
`i16::MIN`, `i32::MIN`. -/
def min : Width → Int
  | .w8 => -128
  | .w16 => -32768
  | .w32 => -2147483648

/-- `fn max_unsigned() -> $unsigned { $unsigned::MAX }`: the constants
`u8::MAX`, `u16::MAX`, `u32::MAX`. -/
def max_unsigned : Width → Nat
  | .w8 => 255
  | .w16 => 65535
  | .w32 => 4294967295

/-- `fn zero() -> $signed { 0 }` -/
def zero : Int := 0

/-- `fn one() -> $signed { 1 }` -/
def one : Int := 1

/-- `fn zero_unsigned() -> $unsigned { 0 }` -/
def zero_unsigned : Nat := 0

/-- `fn one_unsigned() -> $unsigned { 1 }` -/
def one_unsigned : Nat := 1

/-- The Rust cast `v as $signed` for the signed type of `bits W` bits,
applied to a mathematical integer `v`: two's-complement truncation of `v`
to `bits W` bits.  On values already representable in `bits W` bits this
is the identity. -/
def asSigned (W : Width) (v : Int) : Int :=
  (v + 2 ^ (bits W - 1)) % 2 ^ bits W - 2 ^ (bits W - 1)

/-- The Rust cast `v as $unsigned` for the unsigned type of `bits W` bits,
applied to a natural number `v`: truncation modulo `2 ^ bits W`. -/
def asUnsigned (W : Width) (v : Nat) : Nat :=
  v % 2 ^ bits W

/-- `fn from_unsigned(unsigned: $unsigned) -> $signed { unsigned as $signed }` -/
def from_unsigned (W : Width) (u : Nat) : Int :=
  asSigned W u

/-- `fn from_u16_nofail(x: u16) -> $unsigned { x as $unsigned }` -/
def from_u16_nofail (W : Width) (x : Nat) : Nat :=
  asUnsigned W x

/-- `fn from_i32_nofail(x: i32) -> $signed { x as $signed }` -/
def from_i32_nofail (W : Width) (x : Int) : Int :=
  asSigned W x

/-- `fn from_i32(x: i32) -> Option<$signed>`: returns `None` when
`x > $signed::MAX as i32 || x < $signed::MIN as i32`, otherwise
`Some(x as $signed)`.  (The casts `$signed::MAX as i32`,
`$signed::MIN as i32` are value-preserving since `bits W <= 32`.) -/
def from_i32 (W : Width) (x : Int) : Option Int :=
  if x > max W ∨ x < min W then none else some (asSigned W x)

/-- `fn from_i64(x: i64) -> Option<$signed>`: returns `None` when
`x > $signed::MAX as i64 || x < $signed::MIN as i64`, otherwise
`Some(x as $signed)`. -/
def from_i64 (W : Width) (x : Int) : Option Int :=
  if x > max W ∨ x < min W then none else some (asSigned W x)

/-- `fn to_i32(self) -> i32 { self as i32 }`: a widening cast, the
identity on the represented value since `bits W <= 32`. -/
def to_i32 (x : Int) : Int := x

/-- `fn to_i64(self) -> i64 { self as i64 }`: a widening cast, the
identity on the represented value since `bits W <= 64`. -/
def to_i64 (x : Int) : Int := x

/-- `fn wrapping_add(self, other: $signed) -> $signed`: the primitive
`wrapping_add`, i.e. the mathematical sum truncated to `bits W` bits in
two's complement. -/
def wrapping_add (W : Width) (a b : Int) : Int :=
  asSigned W (a + b)

/-- `fn wrapping_sub(self, other: $signed) -> $signed`: the primitive
`wrapping_sub`, i.e. the mathematical difference truncated to `bits W`
bits in two's complement. -/
def wrapping_sub (W : Width) (a b : Int) : Int :=
  asSigned W (a - b)

/-- `x` is a representable value of the signed type of width `W`
(an actual `i8` / `i16` / `i32` value). -/
def inRangeS (W : Width) (x : Int) : Prop :=
  min W ≤ x ∧ x ≤ max W

/-- `u` is a representable value of the unsigned type of width `W`
(an actual `u8` / `u16` / `u32` value). -/
def inRangeU (W : Width) (u : Nat) : Prop :=
  u < 2 ^ bits W

instance (W : Width) (x : Int) : Decidable (inRangeS W x) := by
  unfold inRangeS
  infer_instance

instance (W : Width) (u : Nat) : Decidable (inRangeU W u) := by
  unfold inRangeU
  infer_instance

/-- On representable values the `as $signed` truncation is the identity. -/
theorem asSigned_eq_self (W : Width) (x : Int) (h1 : min W ≤ x) (h2 : x ≤ max W) :
    asSigned W x = x := by
  cases W <;> simp only [asSigned, bits, max, min] at * <;> omega

/-- The `as $signed` truncation always lands in the representable range. -/
theorem asSigned_inRange (W : Width) (v : Int) : inRangeS W (asSigned W v) := by
  cases W <;> simp only [asSigned, inRangeS, bits, max, min] <;> omega

/-- The `as $signed` truncation preserves the value modulo `2 ^ bits W`. -/
theorem asSigned_emod (W : Width) (v : Int) :
    (v - asSigned W v) % 2 ^ bits W = 0 := by
  cases W <;> simp only [asSigned, bits] <;> omega

/-- `from_i32` yields `some x` exactly on the representable range. -/
theorem from_i32_some_iff (W : Width) (x : Int) :
    from_i32 W x = some x ↔ inRangeS W x := by
  unfold from_i32 inRangeS
  by_cases h : x > max W ∨ x < min W
  · rw [if_pos h]
    simp only [reduceCtorEq, false_iff]
    omega
  · push_neg at h
    rw [if_neg (by omega), asSigned_eq_self W x h.2 h.1]
    simp only [Option.some.injEq, true_iff]
    exact ⟨h.2, h.1⟩

/-- `from_i32` yields `none` exactly off the representable range. -/
theorem from_i32_none_iff (W : Width) (x : Int) :
    from_i32 W x = none ↔ ¬ inRangeS W x := by
  unfold from_i32 inRangeS
  by_cases h : x > max W ∨ x < min W
  · rw [if_pos h]
    simp only [true_iff]
    omega
  · push_neg at h
    rw [if_neg (by omega)]
    simp only [reduceCtorEq, false_iff, not_not]
    exact ⟨h.2, h.1⟩

/-- `from_i64` is the same test and cast as `from_i32` on the shared domain. -/
theorem from_i64_eq_from_i32 (W : Width) (x : Int) : from_i64 W x = from_i32 W x := rfl

/-- On a W-bit pattern the `as $signed` truncation is the two's-complement
reinterpretation. -/
theorem asSigned_of_bit_pattern (W : Width) (v : Int) (h0 : 0 ≤ v) (h1 : v < 2 ^ bits W) :
    asSigned W v = if v < 2 ^ (bits W - 1) then v else v - 2 ^ bits W := by
  cases W <;> simp only [asSigned, bits] at h1 ⊢ <;> split <;> omega

/-- The `as $signed` truncation is injective on W-bit patterns. -/
theorem asSigned_inj (W : Width) (a b : Int)
    (ha0 : 0 ≤ a) (ha1 : a < 2 ^ bits W) (hb0 : 0 ≤ b) (hb1 : b < 2 ^ bits W)
    (h : asSigned W a = asSigned W b) : a = b := by
  cases W <;> simp only [asSigned, bits] at ha1 hb1 h <;> omega

/-- C1: for each supported width, `from_i32 x` (and `from_i64 x`) is
`some x` iff `min ≤ x ≤ max` and `none` otherwise; at width 16,
`from_i32 32768 = none`, `from_i32 32767 = some 32767`,
`from_i32 (-32768) = some (-32768)`. -/
theorem checked_conversions_range (W : Width) (x : Int) :
    (from_i32 W x = some x ↔ min W ≤ x ∧ x ≤ max W) ∧
    (from_i32 W x = none ↔ ¬ (min W ≤ x ∧ x ≤ max W)) ∧
    (from_i64 W x = some x ↔ min W ≤ x ∧ x ≤ max W) ∧
    (from_i64 W x = none ↔ ¬ (min W ≤ x ∧ x ≤ max W)) ∧
    from_i32 Width.w16 32768 = none ∧
    from_i32 Width.w16 32767 = some 32767 ∧
    from_i32 Width.w16 (-32768) = some (-32768) := by
  refine ⟨from_i32_some_iff W x, from_i32_none_iff W x, ?_, ?_,
    by decide, by decide, by decide⟩
  · rw [from_i64_eq_from_i32]
    exact from_i32_some_iff W x
  · rw [from_i64_eq_from_i32]
    exact from_i32_none_iff W x

/-- C2: for each supported width W, `to_i64 (from_unsigned u)` is the
two's-complement reinterpretation of the W-bit pattern `u` (`u` itself
when `u < 2^(W-1)`, `u - 2^W` otherwise), and `from_unsigned` is
injective over the W-bit unsigned space. -/
theorem from_unsigned_twos_complement (W : Width) (u v : Nat)
    (hu : inRangeU W u) (hv : inRangeU W v) :
    (to_i64 (from_unsigned W u) =
      if (u : Int) < 2 ^ (bits W - 1) then (u : Int) else (u : Int) - 2 ^ bits W) ∧
    (from_unsigned W u = from_unsigned W v → u = v) := by
  unfold inRangeU at hu hv
  have hu1 : (u : Int) < 2 ^ bits W := by exact_mod_cast hu
  have hv1 : (v : Int) < 2 ^ bits W := by exact_mod_cast hv
  constructor
  · exact asSigned_of_bit_pattern W (u : Int) (Int.natCast_nonneg u) hu1
  · intro h
    have h2 := asSigned_inj W (u : Int) (v : Int)
      (Int.natCast_nonneg u) hu1 (Int.natCast_nonneg v) hv1 h
    exact_mod_cast h2

theorem from_unsigned_twos_complement_witness :
    (to_i64 (from_unsigned Width.w8 200) =
      if (200 : Int) < 2 ^ (bits Width.w8 - 1) then (200 : Int)
      else (200 : Int) - 2 ^ bits Width.w8) ∧
    (from_unsigned Width.w8 200 = from_unsigned Width.w8 3 → 200 = 3) :=
  from_unsigned_twos_complement Width.w8 200 3 (by decide) (by decide)

/-- C3: for each supported width, `wrapping_add a b` (resp.
`wrapping_sub a b`) is the mathematical sum (resp. difference) reduced
modulo `2^W` into the two's-complement range `[min, max]`, and agrees
with ordinary addition (resp. subtraction) whenever that does not
overflow. -/
theorem wrapping_arith_mod (W : Width) (a b : Int) :
    inRangeS W (wrapping_add W a b) ∧
    (a + b - wrapping_add W a b) % 2 ^ bits W = 0 ∧
    inRangeS W (wrapping_sub W a b) ∧
    (a - b - wrapping_sub W a b) % 2 ^ bits W = 0 ∧
    (inRangeS W (a + b) → wrapping_add W a b = a + b) ∧
    (inRangeS W (a - b) → wrapping_sub W a b = a - b) := by
  cases W <;>
    simp only [wrapping_add, wrapping_sub, asSigned, inRangeS, bits, max, min] <;>
    exact ⟨by omega, by omega, by omega, by omega, fun h => by omega, fun h => by omega⟩

theorem wrapping_arith_mod_witness :
    wrapping_add Width.w8 100 20 = 100 + 20 ∧
    wrapping_sub Width.w8 (-100) 20 = -100 - 20 :=
  ⟨(wrapping_arith_mod Width.w8 100 20).2.2.2.2.1 (by decide),
   (wrapping_arith_mod Width.w8 (-100) 20).2.2.2.2.2 (by decide)⟩

/-- C4: for each supported width, `wrapping_add max one = min` and
`wrapping_sub min one = max`; at width 8, `wrapping_add 127 1 = -128`. -/
theorem wrapping_wraparound (W : Width) :
    wrapping_add W (max W) one = min W ∧
    wrapping_sub W (min W) one = max W ∧
    wrapping_add Width.w8 127 1 = -128 := by
  cases W <;> exact ⟨by decide, by decide, by decide⟩

/-- C5: for each supported width, `to_i32` and `to_i64` preserve the
value of every representable sample, and
`from_i32 (to_i32 s) = some s`. -/
theorem widening_lossless_roundtrip (W : Width) (s : Int) (h : inRangeS W s) :
    to_i32 s = s ∧ to_i64 s = s ∧ from_i32 W (to_i32 s) = some s := by
  unfold inRangeS at h
  refine ⟨rfl, rfl, ?_⟩
  show from_i32 W s = some s
  exact (from_i32_some_iff W s).mpr h

theorem widening_lossless_roundtrip_witness :
    to_i32 5 = 5 ∧ to_i64 5 = 5 ∧ from_i32 Width.w8 (to_i32 5) = some 5 :=
  widening_lossless_roundtrip Width.w8 5 (by decide)

/-- C6: under the no-information-loss precondition the unchecked
conversions are the identity: `from_i32_nofail x = x` for every `x` with
`min ≤ x ≤ max`, and `from_u16_nofail u = u` for every u16 value `u`
representable in W unsigned bits. -/
theorem nofail_id_in_range (W : Width) (x : Int) (u : Nat)
    (hx : inRangeS W x) (_hu16 : u < 2 ^ 16) (hu : inRangeU W u) :
    from_i32_nofail W x = x ∧ from_u16_nofail W u = u := by
  unfold inRangeS at hx
  unfold inRangeU at hu
  constructor
  · exact asSigned_eq_self W x hx.1 hx.2
  · unfold from_u16_nofail asUnsigned
    exact Nat.mod_eq_of_lt hu

theorem nofail_id_in_range_witness :
    from_i32_nofail Width.w8 (-7) = -7 ∧ from_u16_nofail Width.w8 200 = 200 :=
  nofail_id_in_range Width.w8 (-7) 200 (by decide) (by decide) (by decide)

/-- C7: for each supported width W, `max_unsigned = 2^W - 1`,
`max = 2^(W-1) - 1`, `min = -2^(W-1)`, and
`zero_unsigned + one_unsigned = one_unsigned`. -/
theorem bound_constants (W : Width) :
    max_unsigned W = 2 ^ bits W - 1 ∧
    max W = 2 ^ (bits W - 1) - 1 ∧
    min W = -(2 ^ (bits W - 1) : Int) ∧
    zero_unsigned + one_unsigned = one_unsigned := by
  cases W <;> exact ⟨by decide, by decide, by decide, by decide⟩

/-- C8: only `from_i32` / `from_i64` can fail, and failure is the
explicit `none` value, occurring exactly off the representable range;
every other operation — `max`, `min`, `max_unsigned`, `zero`, `one`,
`zero_unsigned`, `one_unsigned`, `from_unsigned`, `from_u16_nofail`,
`from_i32_nofail`, `to_i32`, `to_i64`, `wrapping_add`, `wrapping_sub` —
is a total function whose result is a representable value of its output
type (the i32 range for `to_i32`, the i64 range for `to_i64`), for all
three widths. -/
theorem totality_and_failure (W : Width) (x a b : Int) (u : Nat) :
    ((from_i32 W x).isNone ↔ ¬ inRangeS W x) ∧
    ((from_i64 W x).isNone ↔ ¬ inRangeS W x) ∧
    inRangeS W (from_unsigned W u) ∧
    inRangeS W (from_i32_nofail W x) ∧
    inRangeU W (from_u16_nofail W u) ∧
    inRangeS W (wrapping_add W a b) ∧
    inRangeS W (wrapping_sub W a b) ∧
    (inRangeS W x → min Width.w32 ≤ to_i32 x ∧ to_i32 x ≤ max Width.w32) ∧
    (inRangeS W x →
      -9223372036854775808 ≤ to_i64 x ∧ to_i64 x ≤ 9223372036854775807) ∧
    inRangeS W (max W) ∧ inRangeS W (min W) ∧
    inRangeS W zero ∧ inRangeS W one ∧
    inRangeU W zero_unsigned ∧ inRangeU W one_unsigned ∧
    inRangeU W (max_unsigned W) := by
  refine ⟨?_, ?_, asSigned_inRange W u, asSigned_inRange W x, ?_,
    asSigned_inRange W (a + b), asSigned_inRange W (a - b), ?_, ?_,
    ?_, ?_, ?_, ?_, ?_, ?_, ?_⟩
  · rw [Option.isNone_iff_eq_none]
    exact from_i32_none_iff W x
  · rw [from_i64_eq_from_i32, Option.isNone_iff_eq_none]
    exact from_i32_none_iff W x
  · unfold from_u16_nofail asUnsigned inRangeU
    cases W <;> simp only [bits] <;> omega
  · intro h
    unfold inRangeS at h
    unfold to_i32
    cases W <;> simp only [max, min] at h ⊢ <;> omega
  · intro h
    unfold inRangeS at h
    unfold to_i64
    cases W <;> simp only [max, min] at h <;> omega
  all_goals cases W <;> decide

theorem totality_and_failure_witness :
    (min Width.w32 ≤ to_i32 5 ∧ to_i32 5 ≤ max Width.w32) ∧
    (-9223372036854775808 ≤ to_i64 5 ∧ to_i64 5 ≤ 9223372036854775807) :=
  ⟨(totality_and_failure Width.w8 5 0 0 0).2.2.2.2.2.2.2.1 (by decide),
   (totality_and_failure Width.w8 5 0 0 0).2.2.2.2.2.2.2.2.1 (by decide)⟩

/-- C9: at width 32, `from_i32` never fails: for every i32 value `x`
the out-of-range test against `i32::MAX` / `i32::MIN` cannot hold and
`from_i32 x = some x`. -/
theorem from_i32_w32_total (x : Int)
    (h1 : -2147483648 ≤ x) (h2 : x ≤ 2147483647) :
    from_i32 Width.w32 x = some x :=
  (from_i32_some_iff Width.w32 x).mpr (by exact ⟨h1, h2⟩)

theorem from_i32_w32_total_witness : from_i32 Width.w32 2147483647 = some 2147483647 :=
  from_i32_w32_total 2147483647 (by decide) (by decide)

/-- C10: when the no-loss precondition is violated the unchecked
conversions still produce the deterministic two's-complement truncation
modulo `2^W`: `from_i32_nofail x` is the unique representable value
congruent to `x` modulo `2^W`, and at width 8,
`from_u16_nofail u = u % 2^8`. -/
theorem nofail_truncation (W : Width) (x : Int) (u : Nat) :
    inRangeS W (from_i32_nofail W x) ∧
    (x - from_i32_nofail W x) % 2 ^ bits W = 0 ∧
    (∀ y : Int, inRangeS W y → (x - y) % 2 ^ bits W = 0 →
      y = from_i32_nofail W x) ∧
    from_u16_nofail Width.w8 u = u % 2 ^ 8 := by
  refine ⟨asSigned_inRange W x, asSigned_emod W x, ?_, rfl⟩
  intro y hy hmod
  have hr := asSigned_inRange W x
  have he := asSigned_emod W x
  unfold inRangeS at hy hr
  unfold from_i32_nofail asSigned at *
  cases W <;> simp only [bits, max, min] at * <;> omega

theorem nofail_truncation_witness :
    from_i32_nofail Width.w8 300 = 44 ∧ from_u16_nofail Width.w8 300 = 44 :=
  ⟨((nofail_truncation Width.w8 300 300).2.2.1 44 (by decide) (by decide)).symm,
   (nofail_truncation Width.w8 300 300).2.2.2⟩

end Claxon
